import Mathlib

/-
Verification development for a set of Bayesian disease-mapping notebooks
(ICAR/BYM, static Leroux, and spatio-temporal Leroux models over the Scottish
lip-cancer data).  The notebooks' pure data-preparation and model-definition
logic is embedded here:

* spatial pairwise-difference potentials and the Leroux ridge potential
  (rational-valued, since they are polynomial in their inputs);
* adjacency extraction: building the 0/1 adjacency matrix from per-area
  neighbour lists and enumerating its directed edge list row-major, as
  `np.where(adj_matrix == 1)` does;
* the textual neighbour-list parsing `x.strip("][").split(",")` with `int`
  conversion, modelled over lists of characters;
* the zero-sum soft-constraint potential and the model linear predictors and
  log-likelihoods (real-valued, since they involve log, sqrt and pi);
* the synthetic spatio-temporal generator's time axis
  `np.arange(1.0, 1.3, step=0.05)`, modelled in exact IEEE-754 binary64
  arithmetic via integer mantissas in units of 2^-57.
-/

/-! ### Spatial potential functions

Sources: `icar_pairwise_diff` from the BYM notebook,
`pairwise_diff_leroux` and `square_sum` from the Leroux notebooks.
The two edge-index arrays are passed separately, as in the source, and an
effect vector is modelled as a function from indices to rationals. -/

/-- `pairwise_diff_leroux(rho, phi, node1, node2) = -0.5 * rho *
((phi[node1] - phi[node2]) ** 2).sum()` from the Leroux notebooks. -/
def pairwise_diff_leroux (rho : ℚ) (phi : ℕ → ℚ) (node1 node2 : List ℕ) : ℚ :=
  -0.5 * rho * ((node1.zip node2).map (fun p => (phi p.1 - phi p.2) ^ 2)).sum

/-- `icar_pairwise_diff(phi, node1, node2) = -0.5 * ((phi[node1] - phi[node2]) ** 2).sum()`
from the BYM notebook. -/
def icar_pairwise_diff (phi : ℕ → ℚ) (node1 node2 : List ℕ) : ℚ :=
  -0.5 * ((node1.zip node2).map (fun p => (phi p.1 - phi p.2) ^ 2)).sum

/-- `square_sum(rho, phi) = -0.5 * (1-rho) * (phi ** 2).sum()` from the Leroux
notebooks; `N` is the length of the array `phi`. -/
def square_sum (rho : ℚ) (N : ℕ) (phi : ℕ → ℚ) : ℚ :=
  -0.5 * (1 - rho) * ∑ i ∈ Finset.range N, phi i ^ 2

/-- C2: at the two endpoint regimes of the Leroux interpolation, the ridge term
`square_sum` vanishes at `rho = 1` and the pairwise term `pairwise_diff_leroux`
vanishes at `rho = 0`, for every vector `phi` and all edge lists. -/
theorem leroux_endpoint_regimes :
    (∀ (N : ℕ) (phi : ℕ → ℚ), square_sum 1 N phi = 0) ∧
    (∀ (phi : ℕ → ℚ) (node1 node2 : List ℕ),
      pairwise_diff_leroux 0 phi node1 node2 = 0) := by
  constructor
  · intro N phi
    simp [square_sum]
  · intro phi node1 node2
    simp [pairwise_diff_leroux]

/-- C10: both pairwise-difference potentials are invariant under adding a
constant `c` to every entry of `phi` (the additive non-identifiability that the
zero-sum constraint exists to resolve). -/
theorem pairwise_diff_translation_invariant (rho c : ℚ) (phi : ℕ → ℚ)
    (node1 node2 : List ℕ) :
    pairwise_diff_leroux rho (fun i => phi i + c) node1 node2
        = pairwise_diff_leroux rho phi node1 node2 ∧
    icar_pairwise_diff (fun i => phi i + c) node1 node2
        = icar_pairwise_diff phi node1 node2 := by
  have h : (fun p : ℕ × ℕ => ((phi p.1 + c) - (phi p.2 + c)) ^ 2)
      = fun p : ℕ × ℕ => (phi p.1 - phi p.2) ^ 2 :=
    funext fun p => by ring
  constructor <;> simp only [pairwise_diff_leroux, icar_pairwise_diff, h]

/-! ### Adjacency extraction

The adjacency matrix is a function `A : ℕ → ℕ → ℕ` of 0/1 entries with
declared size `N`; `np.where(adj_matrix == 1)` enumerates, row-major, every
index pair whose entry equals 1. -/

/-- Row-major enumeration of the index pairs `(i, j)` with `i, j < N` selected
by the boolean predicate `q`. -/
def pairList (N : ℕ) (q : ℕ → ℕ → Bool) : List (ℕ × ℕ) :=
  (List.range N).flatMap fun i =>
    ((List.range N).filter (fun j => q i j)).map fun j => (i, j)

/-- Row-major list of directed edges of the adjacency matrix `A`: all pairs
`(i, j)` with `A i j = 1`, as enumerated by `np.where(adj_matrix == 1)`. -/
def edgeList (N : ℕ) (A : ℕ → ℕ → ℕ) : List (ℕ × ℕ) :=
  pairList N fun i j => A i j == 1

/-- `node1 = np.where(adj_matrix == 1)[0]`, the row indices. -/
def node1 (N : ℕ) (A : ℕ → ℕ → ℕ) : List ℕ := (edgeList N A).map Prod.fst

/-- `node2 = np.where(adj_matrix == 1)[1]`, the column indices. -/
def node2 (N : ℕ) (A : ℕ → ℕ → ℕ) : List ℕ := (edgeList N A).map Prod.snd

/-- `N_edges = (adj_matrix == 1).sum()`, the number of entries equal to 1. -/
def N_edges (N : ℕ) (A : ℕ → ℕ → ℕ) : ℕ := (edgeList N A).length

/-- Modelled from the spec: the list of unordered neighbour pairs of `A`,
each neighbour pair listed exactly once, with `i < j`. -/
def unorderedPairs (N : ℕ) (A : ℕ → ℕ → ℕ) : List (ℕ × ℕ) :=
  pairList N fun i j => decide (i < j) && A i j == 1

/-- Modelled from the spec: the conventional ICAR log-density
`-0.5 * Σ` over unordered neighbour pairs of `(phi i - phi j)^2`. -/
def icar_conventional (N : ℕ) (A : ℕ → ℕ → ℕ) (phi : ℕ → ℚ) : ℚ :=
  -0.5 * ((unorderedPairs N A).map (fun p => (phi p.1 - phi p.2) ^ 2)).sum

lemma list_range_map_sum {M : Type*} [AddCommMonoid M] (n : ℕ) (f : ℕ → M) :
    ((List.range n).map f).sum = ∑ i ∈ Finset.range n, f i := by
  induction n with
  | zero => simp
  | succ n ih =>
    rw [List.range_succ, List.map_append, List.sum_append, Finset.sum_range_succ, ih]
    simp

lemma filter_map_sum {M : Type*} [AddCommMonoid M] (l : List ℕ) (q : ℕ → Bool)
    (f : ℕ → M) :
    ((l.filter q).map f).sum = (l.map fun j => if q j then f j else 0).sum := by
  induction l with
  | nil => simp
  | cons a l ih =>
    by_cases h : q a <;> simp [List.filter_cons, h, ih]

lemma flatMap_map_sum {M : Type*} [AddCommMonoid M] (l : List ℕ)
    (g : ℕ → List (ℕ × ℕ)) (F : ℕ × ℕ → M) :
    ((l.flatMap g).map F).sum = (l.map fun i => ((g i).map F).sum).sum := by
  induction l with
  | nil => simp
  | cons a l ih => simp [List.flatMap_cons, ih]

lemma pairList_map_sum {M : Type*} [AddCommMonoid M] (N : ℕ) (q : ℕ → ℕ → Bool)
    (F : ℕ × ℕ → M) :
    ((pairList N q).map F).sum
      = ∑ i ∈ Finset.range N, ∑ j ∈ Finset.range N, if q i j then F (i, j) else 0 := by
  unfold pairList
  rw [flatMap_map_sum, list_range_map_sum]
  refine Finset.sum_congr rfl fun i _ => ?_
  rw [List.map_map, filter_map_sum, list_range_map_sum]
  simp [Function.comp]

lemma list_length_eq_sum_ones {α : Type*} (l : List α) :
    l.length = (l.map fun _ => (1 : ℕ)).sum := by
  induction l with
  | nil => simp
  | cons a l ih =>
    rw [List.length_cons, List.map_cons, List.sum_cons, ih, Nat.add_comm]

lemma node_zip (N : ℕ) (A : ℕ → ℕ → ℕ) :
    (node1 N A).zip (node2 N A) = edgeList N A := by
  unfold node1 node2
  rw [List.zip_map']
  simp


lemma double_sum_symm_split {M : Type*} [AddCommMonoid M] (N : ℕ) (w : ℕ → ℕ → M)
    (hsymm : ∀ i j, i < N → j < N → w i j = w j i)
    (hdiag : ∀ i, i < N → w i i = 0) :
    ∑ i ∈ Finset.range N, ∑ j ∈ Finset.range N, w i j
      = (∑ i ∈ Finset.range N, ∑ j ∈ Finset.range N, if i < j then w i j else 0)
        + ∑ i ∈ Finset.range N, ∑ j ∈ Finset.range N, if i < j then w i j else 0 := by
  rw [← Finset.sum_product']
  rw [← Finset.sum_product']
  rw [← Finset.sum_filter]
  have h1 : ∑ p ∈ Finset.range N ×ˢ Finset.range N, w p.1 p.2
      = ∑ p ∈ (Finset.range N ×ˢ Finset.range N).filter fun p => p.1 ≠ p.2,
          w p.1 p.2 := by
    refine (Finset.sum_filter_of_ne fun p hp hw => ?_).symm
    intro hcontra
    apply hw
    have hp2 : p.2 < N := Finset.mem_range.mp (Finset.mem_product.mp hp).2
    calc w p.1 p.2 = w p.2 p.2 := by rw [hcontra]
    _ = 0 := hdiag p.2 hp2
  have h2 : ((Finset.range N ×ˢ Finset.range N).filter fun p => p.1 ≠ p.2)
      = ((Finset.range N ×ˢ Finset.range N).filter fun p => p.1 < p.2)
        ∪ (Finset.range N ×ˢ Finset.range N).filter fun p => p.2 < p.1 := by
    rw [← Finset.filter_or]
    exact Finset.filter_congr fun p _ => ne_iff_lt_or_gt
  have hdisj : Disjoint
      ((Finset.range N ×ˢ Finset.range N).filter fun p => p.1 < p.2)
      ((Finset.range N ×ˢ Finset.range N).filter fun p => p.2 < p.1) := by
    rw [Finset.disjoint_left]
    intro p hp1 hp2
    rw [Finset.mem_filter] at hp1 hp2
    exact absurd hp2.2 (lt_asymm hp1.2)
  have h3 : ∑ p ∈ (Finset.range N ×ˢ Finset.range N).filter fun p => p.2 < p.1,
        w p.1 p.2
      = ∑ p ∈ (Finset.range N ×ˢ Finset.range N).filter fun p => p.1 < p.2,
          w p.1 p.2 := by
    apply Finset.sum_nbij' Prod.swap Prod.swap
    · intro p hp
      rw [Finset.mem_filter, Finset.mem_product] at hp ⊢
      exact ⟨⟨hp.1.2, hp.1.1⟩, hp.2⟩
    · intro p hp
      rw [Finset.mem_filter, Finset.mem_product] at hp ⊢
      exact ⟨⟨hp.1.2, hp.1.1⟩, hp.2⟩
    · intro p _
      simp
    · intro p _
      simp
    · intro p hp
      rw [Finset.mem_filter, Finset.mem_product, Finset.mem_range,
        Finset.mem_range] at hp
      exact hsymm p.1 p.2 hp.1.1 hp.1.2
  rw [h1, h2, Finset.sum_union hdisj, h3]

/-- For a symmetric adjacency matrix `A`, a sum of symmetric edge weights over
the directed edge list splits into two copies of the same sum over the
unordered pair list, provided the weight vanishes on whatever diagonal entries
equal 1. -/
lemma edge_sum_split {M : Type*} [AddCommMonoid M] (N : ℕ) (A : ℕ → ℕ → ℕ)
    (F : ℕ → ℕ → M) (hsymm : ∀ i < N, ∀ j < N, A i j = A j i)
    (hFsymm : ∀ i j, F i j = F j i)
    (hdiag : ∀ i, i < N → (if A i i == 1 then F i i else 0) = 0) :
    ((edgeList N A).map fun p => F p.1 p.2).sum
      = ((unorderedPairs N A).map fun p => F p.1 p.2).sum
        + ((unorderedPairs N A).map fun p => F p.1 p.2).sum := by
  have h1 : ((edgeList N A).map fun p => F p.1 p.2).sum
      = ∑ i ∈ Finset.range N, ∑ j ∈ Finset.range N,
          if A i j == 1 then F i j else 0 :=
    pairList_map_sum N _ _
  have h2 : ((unorderedPairs N A).map fun p => F p.1 p.2).sum
      = ∑ i ∈ Finset.range N, ∑ j ∈ Finset.range N,
          if decide (i < j) && A i j == 1 then F i j else 0 :=
    pairList_map_sum N _ _
  have hw : ∀ i j, i < N → j < N →
      (if A i j == 1 then F i j else 0) = (if A j i == 1 then F j i else 0) :=
    fun i j hi hj => by rw [hsymm i hi j hj, hFsymm]
  have h3 : (∑ i ∈ Finset.range N, ∑ j ∈ Finset.range N,
        if A i j == 1 then F i j else 0)
      = (∑ i ∈ Finset.range N, ∑ j ∈ Finset.range N,
          if i < j then (if A i j == 1 then F i j else 0) else 0)
        + ∑ i ∈ Finset.range N, ∑ j ∈ Finset.range N,
            if i < j then (if A i j == 1 then F i j else 0) else 0 :=
    double_sum_symm_split N _ hw hdiag
  have h4 : (∑ i ∈ Finset.range N, ∑ j ∈ Finset.range N,
        if i < j then (if A i j == 1 then F i j else 0) else 0)
      = ∑ i ∈ Finset.range N, ∑ j ∈ Finset.range N,
          if decide (i < j) && A i j == 1 then F i j else 0 :=
    Finset.sum_congr rfl fun i _ => Finset.sum_congr rfl fun j _ => by
      by_cases hlt : i < j <;> by_cases hA : A i j = 1 <;> simp [hlt, hA]
  rw [h1, h2, h3, h4]

/-- A concrete 2-by-2 adjacency matrix `[[0,1],[1,0]]`: two mutually adjacent
areas. -/
def adjTwo : ℕ → ℕ → ℕ := fun i j =>
  if (i = 0 ∧ j = 1) ∨ (i = 1 ∧ j = 0) then 1 else 0

/-- A concrete effect vector `phi = [1, 0]`. -/
def phiInd : ℕ → ℚ := fun i => if i = 0 then 1 else 0

/-- C1 counterexample: over the symmetric adjacency matrix `[[0,1],[1,0]]`
and `phi = [1, 0]`, the potential `pairwise_diff_leroux` at `rho = 1` equals
`-1`, while the conventional ICAR log-density scaled by `rho = 1` equals
`-1/2`: the double-counted directed sum gives twice the conventional value,
not the conventional value. -/
theorem pairwise_diff_leroux_ne_conventional :
    pairwise_diff_leroux 1 phiInd (node1 2 adjTwo) (node2 2 adjTwo)
      ≠ icar_conventional 2 adjTwo phiInd := by
  have h1 : node1 2 adjTwo = [0, 1] := by decide
  have h2 : node2 2 adjTwo = [1, 0] := by decide
  have h3 : unorderedPairs 2 adjTwo = [(0, 1)] := by decide
  have hz : ([0, 1].zip [1, 0] : List (ℕ × ℕ)) = [(0, 1), (1, 0)] := by decide
  rw [pairwise_diff_leroux, icar_conventional, h1, h2, h3, hz]
  simp only [List.map_cons, List.map_nil, List.sum_cons, List.sum_nil, phiInd]
  norm_num

/-- C1 amended: for every adjacency matrix `A` that is symmetric on its
declared `N` by `N` range, every `rho` and every `phi`, the potential
`pairwise_diff_leroux` over the directed (double-counted) edge list equals
`2 * rho` times the conventional unordered-pair ICAR log-density, and
`icar_pairwise_diff` equals twice the conventional ICAR log-density. -/
theorem pairwise_diff_is_twice_conventional (N : ℕ) (A : ℕ → ℕ → ℕ) (rho : ℚ)
    (phi : ℕ → ℚ) (hsymm : ∀ i < N, ∀ j < N, A i j = A j i) :
    pairwise_diff_leroux rho phi (node1 N A) (node2 N A)
        = 2 * rho * icar_conventional N A phi ∧
    icar_pairwise_diff phi (node1 N A) (node2 N A)
        = 2 * icar_conventional N A phi := by
  have h : ((edgeList N A).map fun p => (phi p.1 - phi p.2) ^ 2).sum
      = ((unorderedPairs N A).map fun p => (phi p.1 - phi p.2) ^ 2).sum
        + ((unorderedPairs N A).map fun p => (phi p.1 - phi p.2) ^ 2).sum :=
    edge_sum_split N A (fun i j => (phi i - phi j) ^ 2) hsymm
      (fun i j => by ring) (fun i _ => by simp)
  constructor
  · rw [pairwise_diff_leroux, icar_conventional, node_zip, h]
    ring
  · rw [icar_pairwise_diff, icar_conventional, node_zip, h]
    ring

/-- C1 amended witness: the amended identity instantiated at the concrete
symmetric matrix `[[0,1],[1,0]]`, `rho = 1` and `phi = [1, 0]`. -/
theorem pairwise_diff_is_twice_conventional_witness :
    pairwise_diff_leroux 1 phiInd (node1 2 adjTwo) (node2 2 adjTwo)
      = 2 * 1 * icar_conventional 2 adjTwo phiInd :=
  (pairwise_diff_is_twice_conventional 2 adjTwo 1 phiInd (by decide)).1

/-- C6: for every adjacency matrix that is symmetric and has no diagonal entry
equal to 1 on its declared range, the extracted `N_edges` equals exactly twice
the number of unordered neighbour pairs; and on the concrete matrix
`[[0,1],[1,0]]` the extraction yields `node1 = [0,1]`, `node2 = [1,0]`,
`N_edges = 2`. -/
theorem N_edges_eq_twice_unordered_pairs :
    (∀ (N : ℕ) (A : ℕ → ℕ → ℕ), (∀ i < N, ∀ j < N, A i j = A j i) →
      (∀ i < N, A i i ≠ 1) →
      N_edges N A = 2 * (unorderedPairs N A).length) ∧
    node1 2 adjTwo = [0, 1] ∧ node2 2 adjTwo = [1, 0] ∧ N_edges 2 adjTwo = 2 := by
  refine ⟨fun N A hsymm hdiag => ?_, by decide, by decide, by decide⟩
  have h : ((edgeList N A).map fun _ => (1 : ℕ)).sum
      = ((unorderedPairs N A).map fun _ => (1 : ℕ)).sum
        + ((unorderedPairs N A).map fun _ => (1 : ℕ)).sum :=
    edge_sum_split N A (fun _ _ => 1) hsymm (fun _ _ => rfl)
      (fun i hi => by simp [hdiag i hi])
  rw [N_edges, list_length_eq_sum_ones (edgeList N A),
    list_length_eq_sum_ones (unorderedPairs N A), h, Nat.two_mul]

/-- C6 witness: the general identity instantiated at the concrete symmetric
hollow matrix `[[0,1],[1,0]]`. -/
theorem N_edges_eq_twice_unordered_pairs_witness :
    N_edges 2 adjTwo = 2 * (unorderedPairs 2 adjTwo).length :=
  N_edges_eq_twice_unordered_pairs.1 2 adjTwo (by decide) (by decide)

/-! ### Building the adjacency matrix from the neighbour-list column -/

/-- The 1-based to 0-based index shift `adj[i][j] = adj[i][j] - 1`. -/
def toZeroBased (adj : List (List ℤ)) : List (List ℤ) :=
  adj.map fun row => row.map fun v => v - 1

/-- The matrix built by `adj_matrix[area, adj[area]] = 1`, row by row.  Entry
`(i, j)` is 1 exactly when row `i` of `adj0` contains `j`, or contains the
negative index `j - N` (numpy interprets a negative index `-k` as column
`N - k`).  Indices outside `[-N, N)` raise an `IndexError` in numpy, so the
matrix is meaningful under an in-range hypothesis on the lists. -/
def adj_matrix (N : ℕ) (adj0 : List (List ℤ)) : ℕ → ℕ → ℕ := fun i j =>
  if (adj0.getD i []).any fun v => v == (j : ℤ) || v == (j : ℤ) - (N : ℤ) then 1
  else 0

/-- C7 counterexample: the 1-based neighbour-list column `[[2],[1],[1]]`
(area 0 lists area 1; areas 1 and 2 both list area 0) produces a matrix with
entry `(2,0)` equal to 1 but entry `(0,2)` equal to 0.  The construction step
never symmetrises, so an asymmetric input column yields an asymmetric
matrix. -/
theorem adj_matrix_not_always_symmetric :
    adj_matrix 3 (toZeroBased [[2], [1], [1]]) 2 0 = 1 ∧
    adj_matrix 3 (toZeroBased [[2], [1], [1]]) 0 2 = 0 := by
  decide

/-- C7 amended: if every index listed in the shifted column is in range
`[0, N)` and the input neighbour relation is symmetric (`j` is listed by `i`
exactly when `i` is listed by `j`), then the constructed `N` by `N` matrix is
symmetric on its index range. -/
theorem adj_matrix_symm_of_symm_input (N : ℕ) (adj0 : List (List ℤ))
    (hrange : ∀ row ∈ adj0, ∀ v ∈ row, 0 ≤ v ∧ v < (N : ℤ))
    (hsymm : ∀ i < N, ∀ j < N,
      ((j : ℤ) ∈ adj0.getD i [] ↔ (i : ℤ) ∈ adj0.getD j [])) :
    ∀ i < N, ∀ j < N, adj_matrix N adj0 i j = adj_matrix N adj0 j i := by
  have key : ∀ a b : ℕ, b < N →
      (((adj0.getD a []).any fun v => v == (b : ℤ) || v == (b : ℤ) - (N : ℤ))
          = true
        ↔ (b : ℤ) ∈ adj0.getD a []) := by
    intro a b hb
    rw [List.any_eq_true]
    constructor
    · rintro ⟨v, hv, hvb⟩
      rw [Bool.or_eq_true, beq_iff_eq, beq_iff_eq] at hvb
      rcases hvb with h | h
      · rwa [h] at hv
      · exfalso
        have hrow : 0 ≤ v := by
          by_cases ha : a < adj0.length
          · exact (hrange (adj0.getD a []) (by
              rw [List.getD_eq_getElem adj0 [] ha]
              exact adj0.getElem_mem ha) v hv).1
          · rw [List.getD_eq_default adj0 [] (Nat.le_of_not_lt ha)] at hv
            simp at hv
        omega
    · intro hmem
      exact ⟨b, hmem, by simp⟩
  intro i hi j hj
  unfold adj_matrix
  exact if_congr ((key i j hj).trans ((hsymm i hi j hj).trans (key j i hi).symm))
    rfl rfl

/-- C7 amended witness: a symmetric in-range two-area column (each area lists
the other, 1-based `[[2],[1]]`) yields equal off-diagonal entries. -/
theorem adj_matrix_symm_of_symm_input_witness :
    adj_matrix 2 (toZeroBased [[2], [1]]) 0 1
      = adj_matrix 2 (toZeroBased [[2], [1]]) 1 0 :=
  adj_matrix_symm_of_symm_input 2 (toZeroBased [[2], [1]]) (by decide) (by decide)
    0 (by decide) 1 (by decide)

/-! ### Parsing the textual neighbour lists

The loader's `lambda x: [int(val) for val in x.strip("][").split(",")]`
modelled over lists of characters. -/

/-- Python `str.strip(chars)`: remove all leading and trailing characters
belonging to the set `p`. -/
def pyStrip (p : Char → Bool) (s : List Char) : List Char :=
  ((s.dropWhile p).reverse.dropWhile p).reverse

/-- Python `str.split(",")`: split at every comma, keeping empty fields. -/
def splitComma : List Char → List (List Char)
  | [] => [[]]
  | c :: rest =>
    if c = ',' then [] :: splitComma rest
    else
      match splitComma rest with
      | [] => [[c]]
      | t :: ts => (c :: t) :: ts

/-- The digit-run grammar accepted by Python `int` after sign removal: a
nonempty digit sequence, with single underscores permitted between digits.
The boolean state records whether the previous character was a digit. -/
def digitsOKAux : Bool → List Char → Bool
  | prevDigit, [] => prevDigit
  | prevDigit, c :: rest =>
    if c.isDigit then digitsOKAux true rest
    else if c = '_' then prevDigit && digitsOKAux false rest
    else false

def digitsOK (l : List Char) : Bool := digitsOKAux false l

/-- Decimal value of a digit run (underscores are grouping only). -/
def digitsVal (l : List Char) : ℕ :=
  (l.filter fun c => !(c == '_')).foldl (fun acc c => 10 * acc + (c.toNat - 48)) 0

/-- Python `int(token)`: strip surrounding whitespace, allow one leading sign,
then require a digit run; anything else raises `ValueError`, modelled as
`none`.  (Python additionally accepts some unicode whitespace and digits;
those never occur in this data.) -/
def pyInt? (s : List Char) : Option ℤ :=
  match pyStrip Char.isWhitespace s with
  | [] => none
  | c :: rest =>
    if c = '-' then if digitsOK rest then some (-(digitsVal rest : ℤ)) else none
    else if c = '+' then if digitsOK rest then some (digitsVal rest : ℤ) else none
    else if digitsOK (c :: rest) then some (digitsVal (c :: rest) : ℤ) else none

/-- Evaluation of the list comprehension `[int(val) for val in tokens]`: any
failing conversion aborts the whole comprehension with the exception,
modelled as `none`. -/
def optMap {α β : Type} (f : α → Option β) : List α → Option (List β)
  | [] => some []
  | a :: l =>
    match f a, optMap f l with
    | some b, some bs => some (b :: bs)
    | _, _ => none

/-- One row of the `ADJ` column:
`lambda x: [int(val) for val in x.strip("][").split(",")]`. -/
def parseAdjRow (s : List Char) : Option (List ℤ) :=
  optMap pyInt? (splitComma (pyStrip (fun c => c == ']' || c == '[') s))

/-- C8 counterexample: the malformed string `"2,3]"` (unbalanced bracket) does
not fail with a parsing error: the stray bracket is silently stripped and the
row parses to the neighbour list `[2, 3]`. -/
theorem parse_unbalanced_bracket_succeeds :
    parseAdjRow ['2', ',', '3', ']'] = some [2, 3] := by
  decide

lemma splitComma_ne_nil : ∀ l : List Char, splitComma l ≠ [] := by
  intro l
  induction l with
  | nil => simp [splitComma]
  | cons c rest ih =>
    by_cases h : c = ','
    · simp [splitComma, h]
    · rcases hsp : splitComma rest with _ | ⟨t, ts⟩
      · exact absurd hsp ih
      · simp [splitComma, h, hsp]

lemma optMap_ne_some_nil {α β : Type} (f : α → Option β) (l : List α)
    (hl : l ≠ []) : optMap f l ≠ some [] := by
  cases l with
  | nil => exact absurd rfl hl
  | cons a l =>
    cases hfa : f a <;> cases hol : optMap f l <;> simp [optMap, hfa, hol]

lemma optMap_eq_none_of_mem {α β : Type} (f : α → Option β) (l : List α) (a : α)
    (ha : a ∈ l) (hfa : f a = none) : optMap f l = none := by
  induction l with
  | nil => simp at ha
  | cons b l ih =>
    rcases List.mem_cons.mp ha with h | h
    · subst h
      simp [optMap, hfa]
    · cases hfb : f b <;> simp [optMap, hfb, ih h]

/-- C8 amended: no input string ever parses to an empty neighbour list, and a
row fails with a parsing error (`none`) whenever any of its comma-separated
fields (after bracket stripping) is rejected by the integer conversion;
unbalanced leading or trailing brackets, however, are silently stripped and do
not by themselves cause a failure. -/
theorem parse_fails_on_nonnumeric_token :
    (∀ s : List Char, parseAdjRow s ≠ some []) ∧
    (∀ s t : List Char,
      t ∈ splitComma (pyStrip (fun c => c == ']' || c == '[') s) →
      pyInt? t = none → parseAdjRow s = none) := by
  constructor
  · intro s
    exact optMap_ne_some_nil _ _ (splitComma_ne_nil _)
  · intro s t hmem hfail
    exact optMap_eq_none_of_mem _ _ _ hmem hfail

/-- C8 amended witness: the row `"[2,a]"` contains the non-numeric token
`"a"`, so its parse fails; and the parse of the well-formed row `"2"` is not
the empty list. -/
theorem parse_fails_on_nonnumeric_token_witness :
    parseAdjRow ['[', '2', ',', 'a', ']'] = none ∧
    parseAdjRow ['2'] ≠ some [] :=
  ⟨parse_fails_on_nonnumeric_token.2 ['[', '2', ',', 'a', ']'] ['a'] (by decide)
      (by decide),
    parse_fails_on_nonnumeric_token.1 ['2']⟩

/-! ### The zero-sum soft constraint and the BYM model declaration

Real-valued (they involve `log`, `sqrt`, `exp` and `pi`), so the definitions
of this section are noncomputable. -/

/-- `pm.logp` of `pm.Normal.dist(mu, sigma)` at `x`. -/
noncomputable def normal_logp (mu sigma x : ℝ) : ℝ :=
  -Real.log sigma - Real.log (2 * Real.pi) / 2 - ((x - mu) / sigma) ^ 2 / 2

/-- `zero_constraint = pm.Normal.dist(mu=0.0, sigma=np.sqrt(0.001))`, as the
log-density function `x => pm.logp(zero_constraint, x)`. -/
noncomputable def zero_constraint_logp (x : ℝ) : ℝ :=
  normal_logp 0 (Real.sqrt 0.001) x

/-- BYM notebook: `pm.Potential("zero_sum_theta", pm.logp(zero_constraint,
pm.math.sum(theta)))`. -/
noncomputable def bym_zero_sum_theta (N : ℕ) (theta : ℕ → ℝ) : ℝ :=
  zero_constraint_logp (∑ i ∈ Finset.range N, theta i)

/-- BYM notebook: `pm.Potential("zero_sum_phi", pm.logp(zero_constraint,
pm.math.sum(phi)))`. -/
noncomputable def bym_zero_sum_phi (N : ℕ) (phi : ℕ → ℝ) : ℝ :=
  zero_constraint_logp (∑ i ∈ Finset.range N, phi i)

/-- Static Leroux notebook: `pm.Potential("zero_sum_phi", ...)`. -/
noncomputable def leroux_zero_sum_phi (N : ℕ) (phi : ℕ → ℝ) : ℝ :=
  zero_constraint_logp (∑ i ∈ Finset.range N, phi i)

/-- Spatio-temporal Leroux notebook: `pm.Potential("zero_sum_phi", ...)`. -/
noncomputable def st_zero_sum_phi (N : ℕ) (phi : ℕ → ℝ) : ℝ :=
  zero_constraint_logp (∑ i ∈ Finset.range N, phi i)

/-- Spatio-temporal Leroux notebook: `pm.Potential("zero_sum_delta", ...)`. -/
noncomputable def st_zero_sum_delta (N : ℕ) (delta : ℕ → ℝ) : ℝ :=
  zero_constraint_logp (∑ i ∈ Finset.range N, delta i)

/-- Modelled from the spec: the log-density of a zero-mean Normal distribution
with variance `v`, evaluated at `x`. -/
noncomputable def zeroMeanNormalLogpdf (v x : ℝ) : ℝ :=
  -Real.log (2 * Real.pi * v) / 2 - x ^ 2 / (2 * v)

lemma zero_constraint_logp_eq (x : ℝ) :
    zero_constraint_logp x = zeroMeanNormalLogpdf 0.001 x := by
  unfold zero_constraint_logp normal_logp zeroMeanNormalLogpdf
  have h1 : Real.log (Real.sqrt 0.001) = Real.log 0.001 / 2 :=
    Real.log_sqrt (by norm_num)
  have h2 : Real.sqrt 0.001 ^ 2 = (0.001 : ℝ) := Real.sq_sqrt (by norm_num)
  have h3 : Real.log (2 * Real.pi * 0.001)
      = Real.log (2 * Real.pi) + Real.log 0.001 :=
    Real.log_mul (by positivity) (by norm_num)
  rw [h1, h3, sub_zero, div_pow, h2]
  ring

/-- C3: in every model variant, each independent latent random-effect vector
has its own zero-sum potential, equal to the log-density of a zero-mean Normal
with variance 0.001 evaluated at the sum of that vector's entries (not at each
entry): `theta` and `phi` in BYM, `phi` in the static Leroux model, `phi` and
`delta` in the spatio-temporal Leroux model. -/
theorem zero_sum_potentials_are_normal_var_milli (N : ℕ) (v : ℕ → ℝ) :
    bym_zero_sum_theta N v
        = zeroMeanNormalLogpdf 0.001 (∑ i ∈ Finset.range N, v i) ∧
    bym_zero_sum_phi N v
        = zeroMeanNormalLogpdf 0.001 (∑ i ∈ Finset.range N, v i) ∧
    leroux_zero_sum_phi N v
        = zeroMeanNormalLogpdf 0.001 (∑ i ∈ Finset.range N, v i) ∧
    st_zero_sum_phi N v
        = zeroMeanNormalLogpdf 0.001 (∑ i ∈ Finset.range N, v i) ∧
    st_zero_sum_delta N v
        = zeroMeanNormalLogpdf 0.001 (∑ i ∈ Finset.range N, v i) :=
  ⟨zero_constraint_logp_eq _, zero_constraint_logp_eq _, zero_constraint_logp_eq _,
    zero_constraint_logp_eq _, zero_constraint_logp_eq _⟩

/-- C9: the zero-sum potential penalizes larger sums strictly monotonically:
for vectors with `0 ≤ sum phi < sum phi'`, the potential at `phi'` is strictly
smaller than the potential at `phi`. -/
theorem zero_sum_potential_strict_anti (N N' : ℕ) (phi phi' : ℕ → ℝ)
    (h0 : 0 ≤ ∑ i ∈ Finset.range N, phi i)
    (hlt : (∑ i ∈ Finset.range N, phi i) < ∑ i ∈ Finset.range N', phi' i) :
    bym_zero_sum_phi N' phi' < bym_zero_sum_phi N phi := by
  have key : ∀ a b : ℝ, 0 ≤ a → a < b →
      zero_constraint_logp b < zero_constraint_logp a := by
    intro a b ha hab
    rw [zero_constraint_logp_eq, zero_constraint_logp_eq]
    unfold zeroMeanNormalLogpdf
    have hsq : a ^ 2 < b ^ 2 := by nlinarith
    have hc : (0 : ℝ) < 2 * 0.001 := by norm_num
    have hdiv : a ^ 2 / (2 * 0.001) < b ^ 2 / (2 * 0.001) :=
      (div_lt_div_iff_of_pos_right hc).mpr hsq
    linarith
  exact key _ _ h0 hlt

/-- C9 witness: at the concrete one-entry vectors `[0]` and `[1]`. -/
theorem zero_sum_potential_strict_anti_witness :
    bym_zero_sum_phi 1 (fun _ => (1 : ℝ)) < bym_zero_sum_phi 1 (fun _ => 0) :=
  zero_sum_potential_strict_anti 1 1 (fun _ => 0) (fun _ => 1) (by simp)
    (by simp)

/-- `sigma_phi = pm.Deterministic("sigma_phi", 1/at.sqrt(tau_phi))`. -/
noncomputable def sigma_phi (tau_phi : ℝ) : ℝ := 1 / Real.sqrt tau_phi

/-- The BYM linear predictor
`eta = pm.Deterministic("eta", logE + beta0 + beta1*x + sigma_phi*phi + theta)`. -/
noncomputable def bym_eta (beta0 beta1 tau_phi : ℝ) (logE x theta phi : ℕ → ℝ)
    (i : ℕ) : ℝ :=
  logE i + beta0 + beta1 * x i + sigma_phi tau_phi * phi i + theta i

/-- Poisson log-probability-mass `log (lam^k * exp(-lam) / k!)` at count `k`. -/
noncomputable def poisson_logpmf (lam : ℝ) (k : ℕ) : ℝ :=
  k * Real.log lam - lam - Real.log (Nat.factorial k)

/-- The BYM likelihood `obs = pm.Poisson("obs", at.exp(eta), observed=y,
dims="num_areas")`: its joint log-likelihood is the sum over areas of the
Poisson log-pmf at rate `exp(eta_i)`. -/
noncomputable def bym_obs_loglik (N : ℕ) (y : ℕ → ℕ)
    (beta0 beta1 tau_phi : ℝ) (logE x theta phi : ℕ → ℝ) : ℝ :=
  ∑ i ∈ Finset.range N,
    poisson_logpmf (Real.exp (bym_eta beta0 beta1 tau_phi logE x theta phi i))
      (y i)

/-- Modelled from the spec: the BYM linear predictor written as
`beta0 + beta1*x_i + logE_i + theta_i + sigma_phi*phi_i`, with
`sigma_phi = 1/sqrt(tau_phi)` scaling `phi` and `theta` entering unscaled. -/
noncomputable def bym_linear_predictor_spec (beta0 beta1 tau_phi : ℝ)
    (logE x theta phi : ℕ → ℝ) (i : ℕ) : ℝ :=
  beta0 + beta1 * x i + logE i + theta i + (1 / Real.sqrt tau_phi) * phi i

/-- C4: the linear predictor declared by the BYM model equals, for every area,
the spec form `beta0 + beta1*x_i + logE_i + theta_i + sigma_phi*phi_i` (with
`sigma_phi = 1/sqrt(tau_phi)` scaling `phi` only and `theta` unscaled), and
the joint BYM log-likelihood is the sum over areas of independent Poisson
log-pmfs at rate `exp` of that linear predictor. -/
theorem bym_predictor_and_likelihood (N : ℕ) (y : ℕ → ℕ)
    (beta0 beta1 tau_phi : ℝ) (logE x theta phi : ℕ → ℝ) :
    (∀ i, bym_eta beta0 beta1 tau_phi logE x theta phi i
        = bym_linear_predictor_spec beta0 beta1 tau_phi logE x theta phi i) ∧
    bym_obs_loglik N y beta0 beta1 tau_phi logE x theta phi
      = ∑ i ∈ Finset.range N,
          poisson_logpmf
            (Real.exp
              (bym_linear_predictor_spec beta0 beta1 tau_phi logE x theta phi i))
            (y i) := by
  have h : ∀ i, bym_eta beta0 beta1 tau_phi logE x theta phi i
      = bym_linear_predictor_spec beta0 beta1 tau_phi logE x theta phi i := by
    intro i
    unfold bym_eta bym_linear_predictor_spec sigma_phi
    ring
  exact ⟨h, Finset.sum_congr rfl fun i _ => by rw [h i]⟩

/-! ### The synthetic time axis of the spatio-temporal generator

`multipler = np.arange(1.0, 1.3, step=0.05)` is computed by numpy in IEEE-754
binary64 arithmetic: the element count is `ceil((1.3 - 1.0)/0.05)` and element
`i` is `1.0 + i*0.05`, every operation (and every decimal literal) rounded to
the nearest binary64 value, ties to even.  All quantities involved are
positive dyadic rationals lying well inside the normal binary64 range, so a
binary64 value here is represented exactly by its integer mantissa in units of
`2^-57`, and rounding to binary64 is rounding to 53 significant bits. -/

/-- Number of binary digits of `n` (fuel-based so that kernel reduction
works; 200 units of fuel cover every quantity appearing below). -/
def bitsAux : ℕ → ℕ → ℕ
  | 0, _ => 0
  | _ + 1, 0 => 0
  | fuel + 1, n => bitsAux fuel (n / 2) + 1

def bits (n : ℕ) : ℕ := bitsAux 200 n

/-- Round the integer ratio `n / d` to the nearest integer, ties to even. -/
def rnd (n d : ℕ) : ℕ :=
  if 2 * (n % d) < d then n / d
  else if d < 2 * (n % d) then n / d + 1
  else if n / d % 2 = 0 then n / d else n / d + 1

/-- Round the integer ratio `n / d` to odd (von Neumann rounding): truncate
and set the lowest bit if the division is inexact.  Rounding to odd with five
or more guard bits followed by rounding to nearest-even equals direct rounding
to nearest-even, which makes the binary64 quotient below exact. -/
def rodd (n d : ℕ) : ℕ :=
  if n % d = 0 then n / d
  else if n / d % 2 = 0 then n / d + 1 else n / d

/-- Round a dyadic value given as `n` units of `2^-57` to 53 significant bits
(binary64 precision), ties to even. -/
def fl57 (n : ℕ) : ℕ :=
  if bits n ≤ 53 then n
  else rnd n (2 ^ (bits n - 53)) * 2 ^ (bits n - 53)

/-- The binary64 value of the literal `1.0`, in units of `2^-57`. -/
def onef : ℕ := 2 ^ 57

/-- The binary64 value nearest the literal `1.3`, in units of `2^-57`:
`13/10` has binary exponent 0, so its 53-bit mantissa is `13 * 2^52 / 10`
rounded to the nearest integer, rescaled to units of `2^-57`. -/
def l13f : ℕ := rnd (13 * 2 ^ 52) 10 * 2 ^ 5

/-- The binary64 value nearest the literal `0.05`, in units of `2^-57`:
`1/20` lies in `[2^-5, 2^-4)`, so its units-of-`2^-57` mantissa is `2^57 / 20`
rounded to the nearest integer. -/
def stepf : ℕ := rnd (2 ^ 57) 20

/-- The binary64 quotient of the dyadic values `a * 2^-57` and `b * 2^-57`
(the result is unitless and is returned in units of `2^-57`): round the exact
ratio `a * 2^57 / b` to odd, then to 53 bits. -/
def fdiv57 (a b : ℕ) : ℕ := fl57 (rodd (a * 2 ^ 57) b)

/-- `len(np.arange(1.0, 1.3, 0.05)) = ceil((1.3 - 1.0)/0.05)`, operations in
binary64 (the subtraction of these two values happens to be exact). -/
def arange_len : ℕ :=
  (fdiv57 (fl57 (l13f - onef)) stepf + (2 ^ 57 - 1)) / 2 ^ 57

/-- The fill increment used by `np.arange`: numpy writes `buffer[0] = start`
and `buffer[1] = start + step` (one binary64 addition), and its fill routine
then recovers `delta = buffer[1] - buffer[0]` by one binary64 subtraction
(exact here, since the difference needs only 48 significant bits).  This
`delta` is one ulp above the binary64 value of `0.05`. -/
def deltaf : ℕ := fl57 (fl57 (onef + stepf) - onef)

/-- `multipler = np.arange(1.0, 1.3, step=0.05)`: numpy sets
`buffer[0] = start` and `buffer[1] = start + step`, then fills
`buffer[i] = start + i*delta` for `i >= 2`, with
`delta = buffer[1] - buffer[0]` and every operation in binary64; values in
units of `2^-57`.  The name keeps the source's spelling. -/
def multipler : List ℕ :=
  (List.range arange_len).map fun i =>
    if i = 0 then onef
    else if i = 1 then fl57 (onef + stepf)
    else fl57 (onef + fl57 (i * deltaf))

/-- `T = len(multipler)`. -/
def T : ℕ := multipler.length

/-- One row of `t_diff`: `np.arange(T) - 3` (every row of `t_diff` is this
same integer vector). -/
def t_diff_row : List ℤ := (List.range T).map fun k => (k : ℤ) - 3

/-- The binary64 values of `multipler` as exact rationals. -/
def multiplerQ : List ℚ := multipler.map fun m => (m : ℚ) / 2 ^ 57

/-- The Poisson rate drawn by the synthetic generator for one area and one
time step: `y[i] * multipler[j] * random_slope` with `random_slope = 1 +`
a Normal noise draw, taken here as an explicit parameter. -/
def st_rate (y noise : ℚ) (j : ℕ) : ℚ := y * multiplerQ.getD j 0 * (1 + noise)

/-- C5 counterexample: the synthetic time axis has 7 steps, not 5 — in
binary64, `(1.3 - 1.0)/0.05` rounds to `6 + 2^-50`, whose ceiling is 7 — and
the centred time index row is therefore not `[-3,-2,-1,0,1]`. -/
theorem synthetic_time_axis_not_five :
    T ≠ 5 ∧ t_diff_row ≠ [-3, -2, -1, 0, 1] := by
  decide

/-- C5 amended: the generator expands the base data along a time axis of
exactly `T = 7` steps (`np.arange` overshoots its stop value because the
binary64 quotient `(1.3-1.0)/0.05` lies just above 6); the growth multipliers
are `1.0`, the binary64 sum `1 + 0.05`, and for `i = 2..6` the binary64
values of `1 + i*delta` with `delta = (1 + 0.05) - 1`, approximately 1.0,
1.05, 1.1, 1.1500000000000001, 1.2000000000000002, 1.2500000000000002 and
1.3000000000000003 (the elements from `i = 3` on lie one ulp above the
binary64 values of `1 + i*0.05`, and the last lies one ulp above binary64
`1.3`); the precomputed centred time index per area equals
`[-3,-2,-1,0,1,2,3]` (a symmetric centred integer range); and with zero slope
noise the expected per-time count for base count `y = 10` is exactly
`10 * multiplier`. -/
theorem synthetic_time_axis_values :
    T = 7 ∧
    multipler = [144115188075855872, 151320947479648672, 158526706883441472,
      165732466287234272, 172938225691027072, 180143985094819872,
      187349744498612672] ∧
    t_diff_row = [-3, -2, -1, 0, 1, 2, 3] ∧
    ∀ j, st_rate 10 0 j = 10 * multiplerQ.getD j 0 := by
  refine ⟨by decide, by decide, by decide, fun j => ?_⟩
  unfold st_rate
  ring
